import Mathlib

/-!
Shallow embedding of the thesaurus-rex matching engine
(src/thesaurus-rex/src/main.rs).

A word is a `List A`; a suffix of a word is represented by the list of its
remaining tokens (two suffixes of the same word are equal iff they have the
same start offset, which for trailing slices coincides with list equality).
`try_match` returns the list of suffixes in the order the Rust coroutine
yields them; `is_match` searches that list for the empty (fully consumed)
suffix, exactly as the Rust `is_match` does with `find`.

The Repetition arm of the Rust code runs a worklist loop: a stack of vectors
of pending suffixes, a `results` hash set of already-yielded suffixes, and a
shrink filter keeping only candidate suffixes strictly shorter than the
suffix they were derived from.  We embed the loop as `repLoop`, defined via a
fuel-indexed structural recursion `repLoopFuel` together with a proof
(`repLoopFuel_sufficient`) that the fuel `stackMeasure + 1` always suffices,
so `repLoop` is a total, kernel-computable function and the natural one-step
unfolding equations hold as theorems.  Rust's `Vec::pop` takes the last
element, so a stack level is modelled with the vector reversed: the head of
the Lean list is the element popped next.
-/

set_option linter.unusedSectionVars false

namespace ThesaurusRex

/-- The `RegularLanguage` enum of the source: Empty, Singleton(token),
Repetition (Kleene star), Union and Concatenation. -/
inductive RegularLanguage (A : Type) where
  | Empty : RegularLanguage A
  | Singleton : A → RegularLanguage A
  | Repetition : RegularLanguage A → RegularLanguage A
  | Union : RegularLanguage A → RegularLanguage A → RegularLanguage A
  | Concatenation : RegularLanguage A → RegularLanguage A → RegularLanguage A
deriving DecidableEq

/-- The source's `new_empty_word`: `Repetition(Empty)`, matching only the
empty word. -/
def new_empty_word (A : Type) : RegularLanguage A :=
  RegularLanguage.Repetition RegularLanguage.Empty

variable {A : Type} [DecidableEq A]

/-- The candidates the Repetition arm pushes after popping `matched`: the
inner language's matches on `matched`, filtered to those strictly shorter
(`matched_tail.len() < matched.len()` in the source), listed in the order the
Rust `Vec` will pop them (reverse of collection order, since `Vec::pop` takes
the last element). -/
def pushedCandidates (f : List A → List (List A)) (matched : List A) :
    List (List A) :=
  ((f matched).filter (fun t => decide (t.length < matched.length))).reverse

/-- Push the candidate level onto the stack, unless it is empty
(`if !element_matches.is_empty()` in the source). -/
def pushStack (f : List A → List (List A)) (matched : List A)
    (stack : List (List (List A))) : List (List (List A)) :=
  if (pushedCandidates f matched).isEmpty then stack
  else pushedCandidates f matched :: stack

/-- Fuel-indexed bound on the work spawned by one pending suffix: `1` for
popping it plus, recursively, the work of each strictly shorter candidate it
pushes.  Structural in the fuel, which only needs to dominate the suffix
length (`repWorkAux_congr`). -/
def repWorkAux (f : List A → List (List A)) : Nat → List A → Nat
  | 0, _ => 1
  | n + 1, s =>
      1 + (((f s).filter (fun t => decide (t.length < s.length))).map
        (repWorkAux f n)).sum

/-- Work bound for one pending suffix. -/
def repWork (f : List A → List (List A)) (s : List A) : Nat :=
  repWorkAux f s.length s

/-- Work bound for one stack level. -/
def levelWork (f : List A → List (List A)) (lvl : List (List A)) : Nat :=
  (lvl.map (repWork f)).sum

/-- Work bound for the whole stack. -/
def stackWork (f : List A → List (List A)) (stack : List (List (List A))) :
    Nat :=
  (stack.map (levelWork f)).sum

/-- Bound on the number of remaining loop iterations: every iteration either
consumes one unit of work (popping a pending suffix) or removes an exhausted
level. -/
def stackMeasure (f : List A → List (List A))
    (stack : List (List (List A))) : Nat :=
  2 * stackWork f stack + stack.length

/-- One Rust loop iteration per unit of fuel.  `none` means the fuel ran out;
`repLoopFuel_sufficient` shows `stackMeasure + 1` units never do. -/
def repLoopFuel (f : List A → List (List A)) :
    Nat → List (List (List A)) → List (List A) → Option (List (List A))
  | 0, _, _ => none
  | _ + 1, [], _ => some []
  | n + 1, [] :: rest, results => repLoopFuel f n rest results
  | n + 1, (matched :: level) :: rest, results =>
      if matched ∈ results then
        repLoopFuel f n (pushStack f matched (level :: rest)) results
      else
        Option.map (fun out => matched :: out)
          (repLoopFuel f n (pushStack f matched (level :: rest))
            (matched :: results))

/-- The Repetition worklist loop of `try_match`: pops pending suffixes,
yields each one not already in `results`, and pushes its strictly shorter
inner matches as new pending work.  Returns the yielded suffixes in order. -/
def repLoop (f : List A → List (List A)) (stack : List (List (List A)))
    (results : List (List A)) : List (List A) :=
  (repLoopFuel f (stackMeasure f stack + 1) stack results).getD []

/-- The source's `try_match`, as the list of suffixes the coroutine yields,
in order.
* Empty yields nothing.
* Singleton(c) yields `word[1:]` when the word starts with `c`.
* Repetition runs the worklist loop seeded with the whole word.
* Union yields the first operand's matches, then the second operand's
  matches that were not already yielded by the first.
* Concatenation yields, for each first-operand match in order, every
  second-operand match on that residual suffix. -/
def try_match : RegularLanguage A → List A → List (List A)
  | RegularLanguage.Empty, _ => []
  | RegularLanguage.Singleton c, w =>
      match w with
      | [] => []
      | head :: tail => if c = head then [tail] else []
  | RegularLanguage.Repetition e, w =>
      repLoop (fun s => try_match e s) [[w]] []
  | RegularLanguage.Union first secnd, w =>
      let fm := try_match first w
      fm ++ (try_match secnd w).filter (fun m => !decide (m ∈ fm))
  | RegularLanguage.Concatenation first secnd, w =>
      (try_match first w).flatMap (fun m => try_match secnd m)

/-- The source's `is_match`: search the yielded suffixes for an empty one. -/
def is_match (language : RegularLanguage A) (word : List A) : Bool :=
  ((try_match language word).find? (fun element => element.isEmpty)).isSome

/-- One shrink-accepted step of the Repetition worklist: an inner match that
is strictly shorter than the suffix it was derived from. -/
def shrinkStep (f : List A → List (List A)) (m s : List A) : Prop :=
  s ∈ f m ∧ s.length < m.length

/-- The work bound does not depend on the fuel once the fuel dominates the
suffix length. -/
theorem repWorkAux_congr (f : List A → List (List A)) :
    ∀ (n m : Nat) (s : List A), s.length ≤ n → s.length ≤ m →
      repWorkAux f n s = repWorkAux f m s := by
  intro n
  induction n with
  | zero =>
    intro m s hn _
    have hf : (f s).filter (fun t => decide (t.length < s.length)) = [] := by
      rw [List.filter_eq_nil_iff]
      intro t _
      simp only [decide_eq_true_eq]
      omega
    cases m with
    | zero => rfl
    | succ m => simp [repWorkAux, hf]
  | succ n ih =>
    intro m s hn hm
    cases m with
    | zero =>
      have hf : (f s).filter (fun t => decide (t.length < s.length)) = [] := by
        rw [List.filter_eq_nil_iff]
        intro t _
        simp only [decide_eq_true_eq]
        omega
      simp [repWorkAux, hf]
    | succ m =>
      simp only [repWorkAux]
      congr 1
      congr 1
      apply List.map_congr_left
      intro t ht
      rw [List.mem_filter] at ht
      have htl : t.length < s.length := by
        have := ht.2
        simpa using this
      exact ih m t (by omega) (by omega)

/-- One-step unfolding of the work bound: one unit for the popped suffix plus
the work of every candidate it pushes. -/
theorem repWork_eq (f : List A → List (List A)) (s : List A) :
    repWork f s = 1 + levelWork f (pushedCandidates f s) := by
  cases s with
  | nil =>
    have hf : (f ([] : List A)).filter
        (fun t => decide (t.length < ([] : List A).length)) = [] := by
      rw [List.filter_eq_nil_iff]
      intro t _
      simp
    simp [repWork, repWorkAux, levelWork, pushedCandidates, hf]
  | cons a tail =>
    have step : repWork f (a :: tail) =
        1 + (((f (a :: tail)).filter
          (fun t => decide (t.length < (a :: tail).length))).map
            (repWorkAux f tail.length)).sum := rfl
    rw [step]
    congr 1
    rw [show levelWork f (pushedCandidates f (a :: tail)) =
      (((f (a :: tail)).filter
        (fun t => decide (t.length < (a :: tail).length))).map
          (repWork f)).sum from by
        simp [levelWork, pushedCandidates, List.map_reverse,
          List.sum_reverse]]
    congr 1
    apply List.map_congr_left
    intro t ht
    rw [List.mem_filter] at ht
    have htl : t.length < (a :: tail).length := by
      have := ht.2
      simpa using this
    exact repWorkAux_congr f tail.length t.length t
      (by simp at htl; omega) (le_refl _)

theorem levelWork_cons (f : List A → List (List A)) (s : List A)
    (lvl : List (List A)) :
    levelWork f (s :: lvl) = repWork f s + levelWork f lvl := by
  simp [levelWork]

theorem stackWork_cons (f : List A → List (List A)) (lvl : List (List A))
    (rest : List (List (List A))) :
    stackWork f (lvl :: rest) = levelWork f lvl + stackWork f rest := by
  simp [stackWork]

/-- Popping a pending suffix strictly decreases the loop measure, whether or
not candidates get pushed. -/
theorem stackMeasure_pushStack_lt (f : List A → List (List A))
    (matched : List A) (level : List (List A)) (rest : List (List (List A))) :
    stackMeasure f (pushStack f matched (level :: rest))
      < stackMeasure f ((matched :: level) :: rest) := by
  have hw := repWork_eq f matched
  unfold pushStack
  split
  · rename_i h
    have hc : pushedCandidates f matched = [] := by
      simpa using h
    have hw1 : repWork f matched = 1 := by
      rw [hw, hc]
      simp [levelWork]
    simp only [stackMeasure, stackWork_cons, levelWork_cons, hw1,
      List.length_cons]
    omega
  · simp only [stackMeasure, stackWork_cons, levelWork_cons, List.length_cons]
    omega

/-- Fuel above the loop measure is interchangeable: any two sufficient fuels
give the same outcome. -/
theorem repLoopFuel_sufficient (f : List A → List (List A))
    (n : Nat) (stack : List (List (List A))) (results : List (List A))
    (hlt : stackMeasure f stack < n) :
    repLoopFuel f n stack results
      = repLoopFuel f (stackMeasure f stack + 1) stack results := by
  match n, stack with
  | 0, _ => omega
  | n + 1, [] => rfl
  | n + 1, [] :: rest =>
    have hM : stackMeasure f ([] :: rest) = stackMeasure f rest + 1 := by
      simp only [stackMeasure, stackWork_cons, List.length_cons]
      have : levelWork f ([] : List (List A)) = 0 := by simp [levelWork]
      omega
    rw [show repLoopFuel f (n + 1) ([] :: rest) results
      = repLoopFuel f n rest results from rfl]
    rw [hM]
    rw [show repLoopFuel f (stackMeasure f rest + 1 + 1) ([] :: rest) results
      = repLoopFuel f (stackMeasure f rest + 1) rest results from rfl]
    exact repLoopFuel_sufficient f n rest results (by omega)
  | n + 1, (matched :: level) :: rest =>
    have hNS := stackMeasure_pushStack_lt f matched level rest
    have hM1 : stackMeasure f ((matched :: level) :: rest) + 1
        = (stackMeasure f ((matched :: level) :: rest)) + 1 := rfl
    rw [show repLoopFuel f (n + 1) ((matched :: level) :: rest) results
      = (if matched ∈ results then
          repLoopFuel f n (pushStack f matched (level :: rest)) results
        else
          Option.map (fun out => matched :: out)
            (repLoopFuel f n (pushStack f matched (level :: rest))
              (matched :: results))) from rfl]
    rw [show repLoopFuel f (stackMeasure f ((matched :: level) :: rest) + 1)
        ((matched :: level) :: rest) results
      = (if matched ∈ results then
          repLoopFuel f (stackMeasure f ((matched :: level) :: rest))
            (pushStack f matched (level :: rest)) results
        else
          Option.map (fun out => matched :: out)
            (repLoopFuel f (stackMeasure f ((matched :: level) :: rest))
              (pushStack f matched (level :: rest))
              (matched :: results))) from rfl]
    split
    · rw [repLoopFuel_sufficient f n
        (pushStack f matched (level :: rest)) results (by omega),
        repLoopFuel_sufficient f
          (stackMeasure f ((matched :: level) :: rest))
          (pushStack f matched (level :: rest)) results (by omega)]
    · rw [repLoopFuel_sufficient f n
        (pushStack f matched (level :: rest)) (matched :: results) (by omega),
        repLoopFuel_sufficient f
          (stackMeasure f ((matched :: level) :: rest))
          (pushStack f matched (level :: rest)) (matched :: results)
          (by omega)]
termination_by n

/-- With fuel above the loop measure the loop completes. -/
theorem repLoopFuel_isSome (f : List A → List (List A))
    (n : Nat) (stack : List (List (List A))) (results : List (List A))
    (hlt : stackMeasure f stack < n) :
    (repLoopFuel f n stack results).isSome = true := by
  match n, stack with
  | 0, _ => omega
  | n + 1, [] => rfl
  | n + 1, [] :: rest =>
    have hM : stackMeasure f ([] :: rest) = stackMeasure f rest + 1 := by
      simp only [stackMeasure, stackWork_cons, List.length_cons]
      have : levelWork f ([] : List (List A)) = 0 := by simp [levelWork]
      omega
    rw [show repLoopFuel f (n + 1) ([] :: rest) results
      = repLoopFuel f n rest results from rfl]
    exact repLoopFuel_isSome f n rest results (by omega)
  | n + 1, (matched :: level) :: rest =>
    have hNS := stackMeasure_pushStack_lt f matched level rest
    rw [show repLoopFuel f (n + 1) ((matched :: level) :: rest) results
      = (if matched ∈ results then
          repLoopFuel f n (pushStack f matched (level :: rest)) results
        else
          Option.map (fun out => matched :: out)
            (repLoopFuel f n (pushStack f matched (level :: rest))
              (matched :: results))) from rfl]
    split
    · exact repLoopFuel_isSome f n
        (pushStack f matched (level :: rest)) results (by omega)
    · have hrec := repLoopFuel_isSome f n
        (pushStack f matched (level :: rest)) (matched :: results) (by omega)
      cases hr : repLoopFuel f n (pushStack f matched (level :: rest))
          (matched :: results) with
      | none => rw [hr] at hrec; simp at hrec
      | some out => rfl
termination_by n

theorem repLoop_nil (f : List A → List (List A)) (results : List (List A)) :
    repLoop f [] results = [] := rfl

theorem repLoop_cons_nil (f : List A → List (List A))
    (rest : List (List (List A))) (results : List (List A)) :
    repLoop f ([] :: rest) results = repLoop f rest results := by
  unfold repLoop
  have hM : stackMeasure f ([] :: rest) = stackMeasure f rest + 1 := by
    simp only [stackMeasure, stackWork_cons, List.length_cons]
    have : levelWork f ([] : List (List A)) = 0 := by simp [levelWork]
    omega
  rw [hM]
  rw [show repLoopFuel f (stackMeasure f rest + 1 + 1) ([] :: rest) results
    = repLoopFuel f (stackMeasure f rest + 1) rest results from rfl]

/-- The loop's one-step unfolding on a pending suffix: yield it unless it was
already yielded, then continue with the strictly shorter candidates (if any)
pushed on top of the stack. -/
theorem repLoop_cons_cons (f : List A → List (List A)) (matched : List A)
    (level : List (List A)) (rest : List (List (List A)))
    (results : List (List A)) :
    repLoop f ((matched :: level) :: rest) results =
      if matched ∈ results then
        repLoop f (pushStack f matched (level :: rest)) results
      else
        matched ::
          repLoop f (pushStack f matched (level :: rest))
            (matched :: results) := by
  unfold repLoop
  have hNS := stackMeasure_pushStack_lt f matched level rest
  rw [show repLoopFuel f (stackMeasure f ((matched :: level) :: rest) + 1)
      ((matched :: level) :: rest) results
    = (if matched ∈ results then
        repLoopFuel f (stackMeasure f ((matched :: level) :: rest))
          (pushStack f matched (level :: rest)) results
      else
        Option.map (fun out => matched :: out)
          (repLoopFuel f (stackMeasure f ((matched :: level) :: rest))
            (pushStack f matched (level :: rest))
            (matched :: results))) from rfl]
  split
  · rw [repLoopFuel_sufficient f
      (stackMeasure f ((matched :: level) :: rest))
      (pushStack f matched (level :: rest)) results (by omega)]
  · rw [repLoopFuel_sufficient f
      (stackMeasure f ((matched :: level) :: rest))
      (pushStack f matched (level :: rest)) (matched :: results) (by omega)]
    have hs := repLoopFuel_isSome f
      (stackMeasure f (pushStack f matched (level :: rest)) + 1)
      (pushStack f matched (level :: rest)) (matched :: results) (by omega)
    obtain ⟨out, hout⟩ := Option.isSome_iff_exists.mp hs
    rw [hout]
    rfl

theorem repLoop_eq_some (f : List A → List (List A))
    (stack : List (List (List A))) (results : List (List A)) :
    repLoopFuel f (stackMeasure f stack + 1) stack results
      = some (repLoop f stack results) := by
  have hs := repLoopFuel_isSome f (stackMeasure f stack + 1) stack results
    (by omega)
  obtain ⟨out, hout⟩ := Option.isSome_iff_exists.mp hs
  rw [hout]
  unfold repLoop
  rw [hout]
  rfl

theorem mem_pushedCandidates (f : List A → List (List A)) (s t : List A) :
    t ∈ pushedCandidates f s ↔ t ∈ f s ∧ t.length < s.length := by
  simp [pushedCandidates, List.mem_reverse, List.mem_filter]

/-- Produced suffixes are genuine suffixes: if the inner enumerator maps any
word to suffixes of it, every suffix the worklist loop yields is a suffix of
`w`, provided every pending suffix on the stack is. -/
theorem repLoopFuel_suffix (f : List A → List (List A)) (w : List A)
    (hf : ∀ u t, t ∈ f u → t <:+ u) :
    ∀ (n : Nat) (stack : List (List (List A))) (results : List (List A))
      (out : List (List A)),
      repLoopFuel f n stack results = some out →
      (∀ lvl ∈ stack, ∀ s ∈ lvl, s <:+ w) →
      ∀ x ∈ out, x <:+ w := by
  intro n
  induction n with
  | zero =>
    intro stack results out h
    simp [repLoopFuel] at h
  | succ n ih =>
    intro stack results out h hstack x hx
    cases stack with
    | nil =>
      rw [show repLoopFuel f (n + 1) ([] : List (List (List A))) results
        = some [] from rfl] at h
      cases h
      simp at hx
    | cons lvl rest =>
      cases lvl with
      | nil =>
        rw [show repLoopFuel f (n + 1) ([] :: rest) results
          = repLoopFuel f n rest results from rfl] at h
        exact ih rest results out h
          (fun l hl s hs => hstack l (List.mem_cons_of_mem _ hl) s hs) x hx
      | cons m lvl =>
        have hm : m <:+ w :=
          hstack (m :: lvl) (List.mem_cons_self _ _) m (List.mem_cons_self _ _)
        have hrest : ∀ lvl' ∈ lvl :: rest, ∀ s ∈ lvl', s <:+ w := by
          intro lvl' hl' s hs'
          rcases List.mem_cons.mp hl' with h1 | h2
          · subst h1
            exact hstack (m :: lvl') (List.mem_cons_self _ _) s
              (List.mem_cons_of_mem _ hs')
          · exact hstack lvl' (List.mem_cons_of_mem _ h2) s hs'
        have hNS : ∀ lvl' ∈ pushStack f m (lvl :: rest), ∀ s ∈ lvl',
            s <:+ w := by
          intro lvl' hl' s hs'
          unfold pushStack at hl'
          split at hl'
          · exact hrest lvl' hl' s hs'
          · rcases List.mem_cons.mp hl' with h1 | h2
            · subst h1
              have hc := (mem_pushedCandidates f m s).mp hs'
              exact (hf m s hc.1).trans hm
            · exact hrest lvl' h2 s hs'
        rw [show repLoopFuel f (n + 1) ((m :: lvl) :: rest) results
          = (if m ∈ results then
              repLoopFuel f n (pushStack f m (lvl :: rest)) results
            else
              Option.map (fun out => m :: out)
                (repLoopFuel f n (pushStack f m (lvl :: rest))
                  (m :: results))) from rfl] at h
        split at h
        · exact ih (pushStack f m (lvl :: rest)) results out h hNS x hx
        · cases hr : repLoopFuel f n (pushStack f m (lvl :: rest))
              (m :: results) with
          | none => rw [hr] at h; cases h
          | some out' =>
            rw [hr] at h
            cases h
            rcases List.mem_cons.mp hx with h1 | h2
            · subst h1; exact hm
            · exact ih (pushStack f m (lvl :: rest)) (m :: results) out' hr
                hNS x h2

/-- The worklist loop yields each suffix at most once, and only suffixes not
already recorded in `results`. -/
theorem repLoopFuel_nodup (f : List A → List (List A)) :
    ∀ (n : Nat) (stack : List (List (List A))) (results : List (List A))
      (out : List (List A)),
      repLoopFuel f n stack results = some out →
      out.Nodup ∧ ∀ x ∈ out, x ∉ results := by
  intro n
  induction n with
  | zero =>
    intro stack results out h
    simp [repLoopFuel] at h
  | succ n ih =>
    intro stack results out h
    cases stack with
    | nil =>
      rw [show repLoopFuel f (n + 1) ([] : List (List (List A))) results
        = some [] from rfl] at h
      cases h
      simp
    | cons lvl rest =>
      cases lvl with
      | nil =>
        rw [show repLoopFuel f (n + 1) ([] :: rest) results
          = repLoopFuel f n rest results from rfl] at h
        exact ih rest results out h
      | cons m lvl =>
        rw [show repLoopFuel f (n + 1) ((m :: lvl) :: rest) results
          = (if m ∈ results then
              repLoopFuel f n (pushStack f m (lvl :: rest)) results
            else
              Option.map (fun out => m :: out)
                (repLoopFuel f n (pushStack f m (lvl :: rest))
                  (m :: results))) from rfl] at h
        split at h
        · exact ih (pushStack f m (lvl :: rest)) results out h
        · rename_i hnotm
          cases hr : repLoopFuel f n (pushStack f m (lvl :: rest))
              (m :: results) with
          | none => rw [hr] at h; cases h
          | some out' =>
            rw [hr] at h
            cases h
            obtain ⟨hnd, hni⟩ :=
              ih (pushStack f m (lvl :: rest)) (m :: results) out' hr
            refine ⟨List.nodup_cons.mpr ⟨?_, hnd⟩, ?_⟩
            · intro hmem
              exact hni m hmem (List.mem_cons_self _ _)
            · intro x hx
              rcases List.mem_cons.mp hx with h1 | h2
              · subst h1; exact hnotm
              · intro hxr
                exact hni x h2 (List.mem_cons_of_mem _ hxr)

/-- Soundness of the worklist loop: every yielded suffix is reachable from
some pending suffix by a chain of shrink-accepted inner matches. -/
theorem repLoopFuel_reach_sound (f : List A → List (List A)) :
    ∀ (n : Nat) (stack : List (List (List A))) (results : List (List A))
      (out : List (List A)),
      repLoopFuel f n stack results = some out →
      ∀ x ∈ out, ∃ lvl ∈ stack, ∃ m ∈ lvl,
        Relation.ReflTransGen (shrinkStep f) m x := by
  intro n
  induction n with
  | zero =>
    intro stack results out h
    simp [repLoopFuel] at h
  | succ n ih =>
    intro stack results out h x hx
    cases stack with
    | nil =>
      rw [show repLoopFuel f (n + 1) ([] : List (List (List A))) results
        = some [] from rfl] at h
      cases h
      simp at hx
    | cons lvl rest =>
      cases lvl with
      | nil =>
        rw [show repLoopFuel f (n + 1) ([] :: rest) results
          = repLoopFuel f n rest results from rfl] at h
        obtain ⟨lvl', hl', m, hm, hr⟩ := ih rest results out h x hx
        exact ⟨lvl', List.mem_cons_of_mem _ hl', m, hm, hr⟩
      | cons m0 lvl =>
        have transfer : ∀ out' : List (List A),
            (∀ y ∈ out', ∃ lvl' ∈ pushStack f m0 (lvl :: rest), ∃ m ∈ lvl',
              Relation.ReflTransGen (shrinkStep f) m y) →
            ∀ y ∈ out', ∃ lvl' ∈ (m0 :: lvl) :: rest, ∃ m ∈ lvl',
              Relation.ReflTransGen (shrinkStep f) m y := by
          intro out' hsound y hy
          obtain ⟨lvl', hl', m, hm, hr⟩ := hsound y hy
          have hfromrest : lvl' ∈ lvl :: rest →
              ∃ lvl'' ∈ (m0 :: lvl) :: rest, ∃ m' ∈ lvl'',
                Relation.ReflTransGen (shrinkStep f) m' y := by
            intro hl''
            rcases List.mem_cons.mp hl'' with h1 | h2
            · subst h1
              exact ⟨m0 :: lvl', List.mem_cons_self _ _, m,
                List.mem_cons_of_mem _ hm, hr⟩
            · exact ⟨lvl', List.mem_cons_of_mem _ h2, m, hm, hr⟩
          unfold pushStack at hl'
          split at hl'
          · exact hfromrest hl'
          · rcases List.mem_cons.mp hl' with h1 | h2
            · subst h1
              have hc := (mem_pushedCandidates f m0 m).mp hm
              exact ⟨m0 :: lvl, List.mem_cons_self _ _, m0,
                List.mem_cons_self _ _, Relation.ReflTransGen.head hc hr⟩
            · exact hfromrest h2
        rw [show repLoopFuel f (n + 1) ((m0 :: lvl) :: rest) results
          = (if m0 ∈ results then
              repLoopFuel f n (pushStack f m0 (lvl :: rest)) results
            else
              Option.map (fun out => m0 :: out)
                (repLoopFuel f n (pushStack f m0 (lvl :: rest))
                  (m0 :: results))) from rfl] at h
        split at h
        · exact transfer out
            (fun y hy => ih (pushStack f m0 (lvl :: rest)) results out h y hy)
            x hx
        · cases hr : repLoopFuel f n (pushStack f m0 (lvl :: rest))
              (m0 :: results) with
          | none => rw [hr] at h; cases h
          | some out' =>
            rw [hr] at h
            cases h
            rcases List.mem_cons.mp hx with h1 | h2
            · subst h1
              exact ⟨x :: lvl, List.mem_cons_self _ _, x,
                List.mem_cons_self _ _, Relation.ReflTransGen.refl⟩
            · exact transfer out'
                (fun y hy => ih (pushStack f m0 (lvl :: rest)) (m0 :: results)
                  out' hr y hy) x h2

/-- Completeness of the worklist loop: every suffix reachable from a pending
suffix by shrink-accepted inner matches ends up yielded or was already
recorded in `results`. -/
theorem repLoopFuel_reach_complete (f : List A → List (List A)) :
    ∀ (n : Nat) (stack : List (List (List A))) (results : List (List A))
      (out : List (List A)),
      repLoopFuel f n stack results = some out →
      ∀ lvl ∈ stack, ∀ m ∈ lvl, ∀ x,
        Relation.ReflTransGen (shrinkStep f) m x →
        x ∈ out ∨ x ∈ results := by
  intro n
  induction n with
  | zero =>
    intro stack results out h
    simp [repLoopFuel] at h
  | succ n ih =>
    intro stack results out h lvl0 hlvl0 m hm x hreach
    cases stack with
    | nil => simp at hlvl0
    | cons lvl rest =>
      cases lvl with
      | nil =>
        rw [show repLoopFuel f (n + 1) ([] :: rest) results
          = repLoopFuel f n rest results from rfl] at h
        rcases List.mem_cons.mp hlvl0 with h1 | h2
        · subst h1; simp at hm
        · exact ih rest results out h lvl0 h2 m hm x hreach
      | cons m0 lvl =>
        rw [show repLoopFuel f (n + 1) ((m0 :: lvl) :: rest) results
          = (if m0 ∈ results then
              repLoopFuel f n (pushStack f m0 (lvl :: rest)) results
            else
              Option.map (fun out => m0 :: out)
                (repLoopFuel f n (pushStack f m0 (lvl :: rest))
                  (m0 :: results))) from rfl] at h
        -- reduce to the recursive state: its output and results, then lift
        have main : ∀ (results' out' : List (List A)),
            repLoopFuel f n (pushStack f m0 (lvl :: rest)) results'
              = some out' →
            m0 ∈ results' →
            x ∈ out' ∨ x ∈ results' := by
          intro results' out' h' hm0
          have hinrest : ∀ m' ∈ lvl, ∀ y,
              Relation.ReflTransGen (shrinkStep f) m' y →
              y ∈ out' ∨ y ∈ results' := by
            intro m' hm' y hy
            unfold pushStack at h'
            split at h'
            · exact ih _ results' out' h' lvl (List.mem_cons_self _ _) m' hm'
                y hy
            · exact ih _ results' out' h' lvl
                (List.mem_cons_of_mem _ (List.mem_cons_self _ _)) m' hm' y hy
          have hinother : ∀ lvl' ∈ rest, ∀ m' ∈ lvl', ∀ y,
              Relation.ReflTransGen (shrinkStep f) m' y →
              y ∈ out' ∨ y ∈ results' := by
            intro lvl' hlvl' m' hm' y hy
            unfold pushStack at h'
            split at h'
            · exact ih _ results' out' h' lvl'
                (List.mem_cons_of_mem _ hlvl') m' hm' y hy
            · exact ih _ results' out' h' lvl'
                (List.mem_cons_of_mem _ (List.mem_cons_of_mem _ hlvl')) m' hm'
                y hy
          have hfromm0 : ∀ y,
              Relation.ReflTransGen (shrinkStep f) m0 y →
              y ∈ out' ∨ y ∈ results' := by
            intro y hy
            rcases Relation.ReflTransGen.cases_head hy with h1 | ⟨c, hc, hcy⟩
            · right; rw [← h1]; exact hm0
            · have hcmem : c ∈ pushedCandidates f m0 :=
                (mem_pushedCandidates f m0 c).mpr hc
              have hne : (pushedCandidates f m0).isEmpty = false := by
                cases hpc : pushedCandidates f m0 with
                | nil => rw [hpc] at hcmem; simp at hcmem
                | cons a l => rfl
              unfold pushStack at h'
              rw [hne] at h'
              simp only [Bool.false_eq_true, if_false] at h'
              exact ih _ results' out' h' (pushedCandidates f m0)
                (List.mem_cons_self _ _) c hcmem y hcy
          rcases List.mem_cons.mp hlvl0 with h1 | h2
          · subst h1
            rcases List.mem_cons.mp hm with hm1 | hm2
            · subst hm1; exact hfromm0 x hreach
            · exact hinrest m hm2 x hreach
          · exact hinother lvl0 h2 m hm x hreach
        split at h
        · rename_i hm0r
          exact main results out h hm0r
        · rename_i hm0r
          cases hr : repLoopFuel f n (pushStack f m0 (lvl :: rest))
              (m0 :: results) with
          | none => rw [hr] at h; cases h
          | some out' =>
            rw [hr] at h
            cases h
            rcases main (m0 :: results) out' hr (List.mem_cons_self _ _) with
                hx | hx
            · left; exact List.mem_cons_of_mem _ hx
            · rcases List.mem_cons.mp hx with h1 | h2
              · subst h1; left; exact List.mem_cons_self _ _
              · right; exact h2

/-- Membership characterisation of the Repetition arm: a suffix is yielded
iff it is reachable from the whole word by shrink-accepted inner matches. -/
theorem mem_try_match_repetition (L : RegularLanguage A) (w x : List A) :
    x ∈ try_match (RegularLanguage.Repetition L) w ↔
      Relation.ReflTransGen (shrinkStep (try_match L)) w x := by
  have hout := repLoop_eq_some (fun s => try_match L s) [[w]] []
  have hdef : try_match (RegularLanguage.Repetition L) w
      = repLoop (fun s => try_match L s) [[w]] [] := rfl
  constructor
  · intro hx
    rw [hdef] at hx
    obtain ⟨lvl, hlvl, m, hm, hr⟩ :=
      repLoopFuel_reach_sound (fun s => try_match L s) _ [[w]] [] _ hout x hx
    simp only [List.mem_singleton] at hlvl
    subst hlvl
    simp only [List.mem_singleton] at hm
    subst hm
    exact hr
  · intro hr
    rcases repLoopFuel_reach_complete (fun s => try_match L s) _ [[w]] [] _
        hout [w] (List.mem_cons_self _ _) w (List.mem_cons_self _ _) x hr with
        hx | hx
    · rw [hdef]; exact hx
    · simp at hx

/-- Membership characterisation of the Union arm: the second operand's
matches already yielded by the first are skipped, so as a set the result is
the union. -/
theorem mem_try_match_union (L1 L2 : RegularLanguage A) (w x : List A) :
    x ∈ try_match (RegularLanguage.Union L1 L2) w ↔
      x ∈ try_match L1 w ∨ x ∈ try_match L2 w := by
  show x ∈ try_match L1 w ++ (try_match L2 w).filter
    (fun m => !decide (m ∈ try_match L1 w)) ↔ _
  rw [List.mem_append, List.mem_filter]
  simp only [Bool.not_eq_true', decide_eq_false_iff_not]
  tauto

/-- Membership characterisation of the Concatenation arm. -/
theorem mem_try_match_concatenation (L1 L2 : RegularLanguage A)
    (w x : List A) :
    x ∈ try_match (RegularLanguage.Concatenation L1 L2) w ↔
      ∃ m ∈ try_match L1 w, x ∈ try_match L2 m := by
  show x ∈ (try_match L1 w).flatMap (fun m => try_match L2 m) ↔ _
  exact List.mem_flatMap

/-- The source's decision rule, as a membership statement: `is_match` finds
an empty suffix iff the empty suffix is among the yielded matches. -/
theorem is_match_eq_true_iff (L : RegularLanguage A) (w : List A) :
    is_match L w = true ↔ [] ∈ try_match L w := by
  unfold is_match
  rw [List.find?_isSome]
  constructor
  · rintro ⟨x, hx, he⟩
    rw [List.isEmpty_iff] at he
    subst he
    exact hx
  · intro h
    exact ⟨[], h, rfl⟩

/-- Chains of shrink-accepted matches of `Repetition L` collapse to chains of
shrink-accepted matches of `L`, and conversely. -/
theorem reach_repetition_iff (L : RegularLanguage A) (w x : List A) :
    Relation.ReflTransGen
        (shrinkStep (try_match (RegularLanguage.Repetition L))) w x ↔
      Relation.ReflTransGen (shrinkStep (try_match L)) w x := by
  constructor
  · intro h
    induction h with
    | refl => exact Relation.ReflTransGen.refl
    | tail _ hbc ih =>
      exact ih.trans ((mem_try_match_repetition L _ _).mp hbc.1)
  · intro h
    refine Relation.ReflTransGen.mono ?_ h
    intro a b hab
    exact ⟨(mem_try_match_repetition L a b).mpr
      (Relation.ReflTransGen.single hab), hab.2⟩

/-- C1: for every language `L` and word `w`, `is_match L w` returns true iff
the fully-consumed suffix — the suffix whose start offset equals `w.length`,
i.e. `w.drop w.length = []` — is among the suffixes `try_match L w`
produces. -/
theorem is_match_iff_fully_consumed_suffix (L : RegularLanguage A)
    (w : List A) :
    is_match L w = true ↔ List.drop w.length w ∈ try_match L w := by
  rw [List.drop_length]
  exact is_match_eq_true_iff L w

/-- C2: matching terminates on finite inputs: the Repetition worklist loop
completes within finite fuel (the stack measure) because each candidate
pushed onto the worklist is strictly shorter than the suffix it was derived
from, `try_match` produces a finite list, and `is_match` returns a
boolean. -/
theorem matching_terminates (L : RegularLanguage A) (w : List A) :
    (∃ fuel : Nat, repLoopFuel (fun s => try_match L s) fuel [[w]] []
        = some (try_match (RegularLanguage.Repetition L) w)) ∧
    (∀ s t : List A, t ∈ pushedCandidates (fun u => try_match L u) s →
      t.length < s.length) ∧
    (is_match L w = true ∨ is_match L w = false) := by
  refine ⟨⟨stackMeasure (fun s => try_match L s) [[w]] + 1,
      repLoop_eq_some (fun s => try_match L s) [[w]] []⟩, ?_, ?_⟩
  · intro s t ht
    exact ((mem_pushedCandidates (fun u => try_match L u) s t).mp ht).2
  · cases is_match L w
    · right; rfl
    · left; rfl

/-- C3 (counterexample): the try_match sequence is not always deduplicated.
For `Concatenation(Union(Repetition(Empty), Singleton 0), Repetition(Singleton 0))`
on the word `[0]`, the fully-consumed suffix is yielded twice (once through
each first-operand match), so the sequence is not duplicate-free. -/
theorem try_match_duplicate_counterexample :
    ¬ (try_match
        (RegularLanguage.Concatenation
          (RegularLanguage.Union
            (RegularLanguage.Repetition RegularLanguage.Empty)
            (RegularLanguage.Singleton 0))
          (RegularLanguage.Repetition (RegularLanguage.Singleton (0 : Nat))))
        [0]).Nodup := by
  decide

/-- C3 (amended): deduplication by suffix identity holds arm-by-arm where the
source maintains a seen-set, not for the whole sequence: the Repetition arm's
results set makes `try_match (Repetition L) w` duplicate-free, and the Union
arm never re-yields from its second operand a suffix the first operand
yielded, so the Union sequence is duplicate-free whenever both operands'
sequences are; the Concatenation arm, however, may repeat a suffix. -/
theorem try_match_dedup_amended (L L1 L2 : RegularLanguage A) (w : List A)
    (h1 : (try_match L1 w).Nodup) (h2 : (try_match L2 w).Nodup) :
    (try_match (RegularLanguage.Repetition L) w).Nodup ∧
      (try_match (RegularLanguage.Union L1 L2) w).Nodup := by
  constructor
  · exact (repLoopFuel_nodup (fun s => try_match L s) _ [[w]] [] _
      (repLoop_eq_some (fun s => try_match L s) [[w]] [])).1
  · show (try_match L1 w ++ (try_match L2 w).filter
      (fun m => !decide (m ∈ try_match L1 w))).Nodup
    rw [List.nodup_append]
    refine ⟨h1, h2.filter _, ?_⟩
    intro x hx1 hx2
    rw [List.mem_filter] at hx2
    have hx := hx2.2
    simp only [Bool.not_eq_true', decide_eq_false_iff_not] at hx
    exact hx hx1

theorem try_match_dedup_amended_witness :
    (try_match
        (RegularLanguage.Repetition (RegularLanguage.Singleton (0 : Nat)))
        [0]).Nodup ∧
      (try_match
        (RegularLanguage.Union (RegularLanguage.Singleton (0 : Nat))
          RegularLanguage.Empty) [0]).Nodup :=
  try_match_dedup_amended (RegularLanguage.Singleton 0)
    (RegularLanguage.Singleton 0) RegularLanguage.Empty [0]
    (by decide) (by decide)

/-- C4: the flattening law: `Repetition (Repetition L)` accepts exactly the
words `Repetition L` accepts. -/
theorem is_match_repetition_flattening (L : RegularLanguage A) (w : List A) :
    is_match (RegularLanguage.Repetition L) w
      = is_match
          (RegularLanguage.Repetition (RegularLanguage.Repetition L)) w := by
  rw [Bool.eq_iff_iff, is_match_eq_true_iff, is_match_eq_true_iff,
    mem_try_match_repetition, mem_try_match_repetition,
    reach_repetition_iff]

/-- C5: matching the empty word against `Repetition L` succeeds for every
`L`: zero repetitions is a legal derivation. -/
theorem is_match_repetition_empty_word (L : RegularLanguage A) :
    is_match (RegularLanguage.Repetition L) ([] : List A) = true := by
  rw [is_match_eq_true_iff, mem_try_match_repetition]

/-- C6: Union acceptance is commutative. -/
theorem is_match_union_comm (L1 L2 : RegularLanguage A) (w : List A) :
    is_match (RegularLanguage.Union L1 L2) w
      = is_match (RegularLanguage.Union L2 L1) w := by
  rw [Bool.eq_iff_iff, is_match_eq_true_iff, is_match_eq_true_iff,
    mem_try_match_union, mem_try_match_union]
  tauto

/-- C7: Concatenation acceptance is associative. -/
theorem is_match_concatenation_assoc (L1 L2 L3 : RegularLanguage A)
    (w : List A) :
    is_match
        (RegularLanguage.Concatenation
          (RegularLanguage.Concatenation L1 L2) L3) w
      = is_match
          (RegularLanguage.Concatenation L1
            (RegularLanguage.Concatenation L2 L3)) w := by
  rw [Bool.eq_iff_iff, is_match_eq_true_iff, is_match_eq_true_iff]
  simp only [mem_try_match_concatenation]
  constructor
  · rintro ⟨m, ⟨m1, hm1, hm⟩, hx⟩
    exact ⟨m1, hm1, m, hm, hx⟩
  · rintro ⟨m1, hm1, m, hm, hx⟩
    exact ⟨m, ⟨m1, hm1, hm⟩, hx⟩

/-- C8: Singleton semantics: on a non-empty word whose first token equals
`tok`, `try_match` yields exactly the tail; otherwise it yields nothing; and
`is_match (Singleton tok) w` holds iff `w` is exactly the one-token word
`[tok]`. -/
theorem try_match_singleton_semantics (tok : A) :
    (∀ (head : A) (tail : List A),
      try_match (RegularLanguage.Singleton tok) (head :: tail)
        = if tok = head then [tail] else []) ∧
    try_match (RegularLanguage.Singleton tok) ([] : List A) = [] ∧
    ∀ w : List A,
      (is_match (RegularLanguage.Singleton tok) w = true ↔ w = [tok]) := by
  refine ⟨fun head tail => rfl, rfl, fun w => ?_⟩
  rw [is_match_eq_true_iff]
  cases w with
  | nil =>
    show ([] : List A) ∈ ([] : List (List A)) ↔ _
    simp
  | cons h t =>
    show ([] : List A) ∈ (if tok = h then [t] else []) ↔ h :: t = [tok]
    by_cases he : tok = h
    · subst he
      simp [eq_comm]
    · simp only [if_neg he, List.not_mem_nil, false_iff, List.cons.injEq,
        not_and]
      intro h1
      exact absurd h1.symm he

/-- C9: the suffix range invariant: every item `try_match L w` produces is a
genuine trailing slice of `w` (hence its start offset lies within
`[0, w.length]`). -/
theorem try_match_suffix_invariant (L : RegularLanguage A) (w s : List A)
    (h : s ∈ try_match L w) : s <:+ w := by
  induction L generalizing w s with
  | Empty => simp [try_match] at h
  | Singleton c =>
    cases w with
    | nil => simp [try_match] at h
    | cons a t =>
      rw [show try_match (RegularLanguage.Singleton c) (a :: t)
        = if c = a then [t] else [] from rfl] at h
      by_cases hc : c = a
      · rw [if_pos hc] at h
        rw [List.mem_singleton] at h
        rw [h]
        exact List.suffix_cons a t
      · rw [if_neg hc] at h
        simp at h
  | Repetition e ihe =>
    have hdef : try_match (RegularLanguage.Repetition e) w
        = repLoop (fun u => try_match e u) [[w]] [] := rfl
    rw [hdef] at h
    refine repLoopFuel_suffix (fun u => try_match e u) w
      (fun u t ht => ihe u t ht) _ [[w]] [] _
      (repLoop_eq_some (fun u => try_match e u) [[w]] []) ?_ s h
    intro lvl hl s' hs'
    rw [List.mem_singleton] at hl
    subst hl
    rw [List.mem_singleton] at hs'
    rw [hs']
  | Union L1 L2 ih1 ih2 =>
    rcases (mem_try_match_union L1 L2 w s).mp h with h1 | h2
    · exact ih1 w s h1
    · exact ih2 w s h2
  | Concatenation L1 L2 ih1 ih2 =>
    obtain ⟨m, hm, hs⟩ := (mem_try_match_concatenation L1 L2 w s).mp h
    exact (ih2 m s hs).trans (ih1 w m hm)

theorem try_match_suffix_invariant_witness :
    ([] : List Nat) ∈ try_match (RegularLanguage.Singleton (0 : Nat)) [0] ∧
      ([] : List Nat) <:+ [0] :=
  ⟨by decide,
    try_match_suffix_invariant (RegularLanguage.Singleton 0) [0] []
      (by decide)⟩

/-- C10: the Repetition arm always yields the full word itself (the suffix
at offset 0, consuming zero repetitions), and yields it first. -/
theorem try_match_repetition_word_first (L : RegularLanguage A)
    (w : List A) :
    w ∈ try_match (RegularLanguage.Repetition L) w ∧
      (try_match (RegularLanguage.Repetition L) w).head? = some w := by
  have hdef : try_match (RegularLanguage.Repetition L) w
      = repLoop (fun u => try_match L u) [[w]] [] := rfl
  have h1 : repLoop (fun u => try_match L u) [[w]] []
      = w :: repLoop (fun u => try_match L u)
          (pushStack (fun u => try_match L u) w [[]]) [w] := by
    rw [repLoop_cons_cons]
    simp
  rw [hdef, h1]
  exact ⟨List.mem_cons_self _ _, rfl⟩

end ThesaurusRex
